import Mathlib

/-!
Shallow embedding of the satellite-wallpaper deployment pipeline
(`deploy-wallpaper.py`) and the wallpaper-mode daemon (`wallpaper_daemon.py`).

Directories are modelled as association lists from file names to byte
contents; writing a file is an upsert (overwrite in place, else append).
The canonicalizer `canonicalize` and the constants from `config_loader`
are external collaborators, taken as parameters.
-/

namespace SatWall

/-- Byte content of a file. -/
abbrev FileData := List Nat

/-- A named file: (name, bytes). -/
abbrev SFile := String × FileData

/-- Directory lookup: first entry whose name matches. -/
def lookup (l : List (String × β)) (k : String) : Option β :=
  (l.find? (fun e => e.1 == k)).map (·.2)

/-- Writing file `k` with content `v` into a directory: overwrite in place
if present, else append. -/
def upsert (l : List (String × β)) (k : String) (v : β) : List (String × β) :=
  if l.any (fun e => e.1 == k) then
    l.map (fun e => if e.1 == k then (k, v) else e)
  else l ++ [(k, v)]

/-- Sequence of writes applied to a directory. -/
def writeAll (prev : List (String × β)) (ws : List (String × β)) : List (String × β) :=
  ws.foldl (fun acc f => upsert acc f.1 f.2) prev

/-- Left-biased choice on `Option`. -/
def orO : Option β → Option β → Option β
  | some v, _ => some v
  | none, b => b

/-- Names (keys) of a directory listing. -/
def namesOf (l : List (String × β)) : List String := l.map Prod.fst


/-! ### Zero-padded decimal frame names (`f"frame_{i:03d}.png"`) -/

/-- The decimal digit character for `n < 10`. -/
def digitChar (n : Nat) : Char := Char.ofNat (48 + n)

/-- Decimal digit characters, most significant first, with enough fuel. -/
def decCharsGo : Nat → Nat → List Char
  | 0, _ => []
  | fuel + 1, n =>
    if n < 10 then [digitChar n]
    else decCharsGo fuel (n / 10) ++ [digitChar (n % 10)]

/-- Decimal digit characters of `n`, most significant first (no leading zeros). -/
def decChars (n : Nat) : List Char := decCharsGo (n + 1) n

/-- Numeric value of a digit string (ignores leading zeros by construction). -/
def valOfDigits (l : List Char) : Nat :=
  l.foldl (fun a c => 10 * a + (c.toNat - 48)) 0

/-- Python's `f"{n:03d}"`, as a character list: pad with `'0'` on the left to
width 3. -/
def pad3 (n : Nat) : List Char :=
  List.replicate (3 - (decChars n).length) '0' ++ decChars n

/-- The staged frame file name `f"frame_{i:03d}.png"`. -/
def frameName (i : Nat) : String :=
  String.mk ("frame_".data ++ pad3 i ++ ".png".data)


/-! ### Staging (`stage_from_latest_run`) -/

/-- `glob("*.png")`: the file name ends in `.png`. -/
def isPngName (n : String) : Bool := ".png".data.isSuffixOf n.data

/-- Code-point lexicographic `≤` on character lists: the order Python uses
to compare file names. -/
def lexLeChars : List Char → List Char → Bool
  | [], _ => true
  | _ :: _, [] => false
  | a :: as, b :: bs =>
    if a.toNat < b.toNat then true
    else if b.toNat < a.toNat then false
    else lexLeChars as bs

/-- Ordering of files by name, as Python's `sorted` on paths inside one
directory compares them. -/
def byName (a b : SFile) : Prop := lexLeChars a.1.data b.1.data = true

instance instDecidableByName : DecidableRel byName :=
  fun a b => inferInstanceAs (Decidable (lexLeChars a.1.data b.1.data = true))

/-- Stable sort of directory entries by file name. -/
def sortFiles (fs : List SFile) : List SFile := List.insertionSort byName fs

/-- The `.png` files of a directory listing. -/
def pngFiles (fs : List SFile) : List SFile := fs.filter (fun f => isPngName f.1)

/-- `source_files = sorted(latest_run_folder.glob("*.png"))`. -/
def sourceFiles (fs : List SFile) : List SFile := sortFiles (pngFiles fs)

/-- The sequence of frame writes performed by the staging loop:
`(staging_dir / f"frame_{i:03d}.png").write_bytes(frame_path.read_bytes())`
for `i, frame_path in enumerate(source_files)`. -/
def stagedWrites (fs : List SFile) : List SFile :=
  (sourceFiles fs).enum.map (fun p => (frameName p.1, p.2.2))

/-- Effect of the staging loop on the staging directory's contents. -/
def writeFrames (prev : List SFile) (fs : List SFile) : List SFile :=
  writeAll prev (stagedWrites fs)

/-- One entry of a parent directory: a (possible) run folder. -/
structure FsEntry where
  name : String
  isDir : Bool
  mtime : Nat
  files : List SFile
  hasManifest : Bool
  manifestBytes : FileData
deriving DecidableEq

/-- A resolved parent directory: its entries plus the current contents of its
`staging` subdirectory (empty list when the directory is fresh). -/
structure Parent where
  entries : List FsEntry
  stagingFiles : List SFile
deriving DecidableEq

/-- `all_runs = [d for d in parent_dir.iterdir() if d.is_dir() and d.name != 'staging']`. -/
def runCandidates (p : Parent) : List FsEntry :=
  p.entries.filter (fun d => d.isDir && d.name != "staging")

/-- `max(all_runs, key=lambda d: d.stat().st_mtime)` — CPython's `max` keeps
the first of several maxima. Returns `none` when there is no candidate. -/
def selectLatestRun (p : Parent) : Option FsEntry :=
  match runCandidates p with
  | [] => none
  | a :: rest => some (rest.foldl (fun best r => if best.mtime < r.mtime then r else best) a)

/-- Specification form of latest-run selection: the FIRST candidate (in
listing order) whose modification time is maximal among all candidates. -/
def latestRunSpec (p : Parent) : Option FsEntry :=
  (runCandidates p).find?
    (fun r => (runCandidates p).all (fun s => decide (s.mtime ≤ r.mtime)))

/-- Result of `stage_from_latest_run` (when no exception escapes). -/
inductive StageResult where
  | noRuns
  | noFrames
  | staged (stagingFiles : List SFile)
deriving DecidableEq

/-- `stage_from_latest_run`. `manifestCopyFails` says whether the
`shutil.copy2(src_manifest, ...)` call raises; that call is not inside any
`try`, so its exception escapes (modelled as `Except.error ()`). -/
def stage_from_latest_run (p : Parent) (manifestCopyFails : Bool) :
    Except Unit StageResult :=
  match selectLatestRun p with
  | none => .ok .noRuns
  | some latest =>
    if sourceFiles latest.files = [] then .ok .noFrames
    else
      let staged := writeFrames p.stagingFiles latest.files
      if latest.hasManifest then
        if manifestCopyFails then .error ()
        else .ok (.staged (upsert staged "current_manifest.json" latest.manifestBytes))
      else .ok (.staged staged)

/-! ### Deployment (`deploy_latest_frames`) -/

/-- `fnmatch` of the glob pattern `frame_*.png`. -/
def globFrame (n : String) : Bool :=
  "frame_".data.isPrefixOf n.data && ".png".data.isSuffixOf n.data &&
    decide (10 ≤ n.data.length)

/-- `sorted(staging_dir.glob("frame_*.png"))`: the files the deploy loop
copies, in order. -/
def deployCopyList (staging : List SFile) : List SFile :=
  sortFiles (staging.filter (fun f => globFrame f.1))

/-- The Wallpaper Engine project directory state consumed by deployment. -/
structure Project where
  materialsExists : Bool
  materialsFiles : List SFile
  manifestFile : Option FileData
deriving DecidableEq

inductive DeployOutcome where
  | sourceNotFound
  | stageFailed
  | stagedOnly
  | noMaterials
  | deployed (copied : Nat)
deriving DecidableEq

/-- Frames reported as copied by an outcome. -/
def copiedFrames : DeployOutcome → Nat
  | .deployed n => n
  | _ => 0

/-- Observable state after a `deploy_latest_frames` call returns normally. -/
structure DeployState where
  outcome : DeployOutcome
  staging : Option (List SFile)
  materialsFiles : List SFile
  projectManifest : Option FileData
  manifestWarn : Bool
deriving DecidableEq

/-- `deploy_latest_frames`, for one view whose parent directory resolved to
`parentQ` (`none` when `find_parent_dir_for_key` found nothing).
`deployManifestCopyFails` says whether the manifest copy into the project
raises; that one is inside `try/except`, so it only sets a warning. -/
def deploy_latest_frames (parentQ : Option Parent) (proj : Project)
    (stageOnly stagingManifestCopyFails deployManifestCopyFails : Bool) :
    Except Unit DeployState :=
  match parentQ with
  | none => .ok ⟨.sourceNotFound, none, proj.materialsFiles, proj.manifestFile, false⟩
  | some p =>
    match stage_from_latest_run p stagingManifestCopyFails with
    | .error e => .error e
    | .ok .noRuns => .ok ⟨.stageFailed, none, proj.materialsFiles, proj.manifestFile, false⟩
    | .ok .noFrames => .ok ⟨.stageFailed, none, proj.materialsFiles, proj.manifestFile, false⟩
    | .ok (.staged st) =>
      if stageOnly then
        .ok ⟨.stagedOnly, some st, proj.materialsFiles, proj.manifestFile, false⟩
      else if !proj.materialsExists then
        .ok ⟨.noMaterials, some st, proj.materialsFiles, proj.manifestFile, false⟩
      else
        let copies := deployCopyList st
        let mats := writeAll proj.materialsFiles copies
        match lookup st "current_manifest.json" with
        | some mbytes =>
          if deployManifestCopyFails then
            .ok ⟨.deployed copies.length, some st, mats, proj.manifestFile, true⟩
          else
            .ok ⟨.deployed copies.length, some st, mats, some mbytes, false⟩
        | none => .ok ⟨.deployed copies.length, some st, mats, proj.manifestFile, false⟩

/-- `STAGE_ONLY = os.environ.get("STAGE_ONLY", "0") == "1"`. -/
def stageOnlyFlag (env : String → Option String) : Bool :=
  (env "STAGE_ONLY").getD "0" == "1"

/-- One view's deployment inputs, as seen by `main`'s loop. -/
structure DeployJob where
  parentQ : Option Parent
  proj : Project
  stageOnly : Bool
  stagingManifestCopyFails : Bool
  deployManifestCopyFails : Bool

/-- `main`'s per-view loop: it has no `try` around `deploy_latest_frames`,
so an escaping exception aborts the remaining views. -/
def runBatch : List DeployJob → Except Unit (List DeployOutcome)
  | [] => .ok []
  | j :: js =>
    match deploy_latest_frames j.parentQ j.proj j.stageOnly
        j.stagingManifestCopyFails j.deployManifestCopyFails with
    | .error e => .error e
    | .ok st => (runBatch js).map (fun rest => st.outcome :: rest)

/-! ### Source resolution (`find_parent_dir_for_key`) -/

/-- `find_parent_dir_for_key(output_root, canonical_key)` over the listing of
`output_root`'s children; returns the chosen child's name. `canonicalize`
lives in `config_loader` and is taken as a parameter. -/
def find_parent_dir_for_key (canon : String → String) (children : List FsEntry)
    (key : String) : Option String :=
  if children.any (fun c => c.name == key && c.isDir) then some key
  else (children.find? (fun c => c.isDir && canon c.name == key)).map (·.name)

/-! ### Project map construction (`main`) -/

/-- One record of `projects.json` after `p.get("view_name_base", "")`. -/
structure ProjRecord where
  base : String
  path : String
deriving DecidableEq

/-- `projects[canonicalize(p["view_name_base"])] = p["project_path"]`, in
input order over an insertion-ordered dict. -/
def buildProjects (canon : String → String) (recs : List ProjRecord) :
    List (String × String) :=
  recs.foldl (fun m p => upsert m (canon p.base) p.path) []

/-! ### Daemon (`wallpaper_daemon.py`) -/

/-- `last_state` values: `None | "static" | "satellite"` (the `None` initial
state is `Option.none` one level up). -/
inductive Mode where
  | static
  | satellite
deriving DecidableEq

/-- OS wallpaper calls a tick can issue. -/
inductive DAction where
  | setStatic (img : String)
  | restoreWE
deriving DecidableEq

/-- `pick_random_static()`: `random.choice(choices) if choices else None`,
with the random draw supplied as an index oracle. -/
def pick_random_static (choices : List String) (draw : Nat) : Option String :=
  match choices with
  | [] => none
  | _ :: _ => choices[draw % choices.length]?

/-- One iteration of `daemon_loop`'s body: from the held state and the
observed activity (plus the static-image pick result), the new held state
and the OS calls issued. -/
def daemonTick (s : Option Mode) (deployActive : Bool) (pickResult : Option String) :
    Option Mode × List DAction :=
  if deployActive && !(s == some .static) then
    match pickResult with
    | some img => (some .static, [.setStatic img])
    | none => (s, [])
  else if !deployActive && !(s == some .satellite) then
    (some .satellite, [.restoreWE])
  else (s, [])

/-- Substring test on character lists (Python's `in` on strings). -/
def isSub (needle : List Char) : List Char → Bool
  | [] => needle.isPrefixOf []
  | c :: t => needle.isPrefixOf (c :: t) || isSub needle t

/-- `needle in hay` for strings. -/
def str_contains (hay needle : String) : Bool := isSub needle.data hay.data

/-- `is_deploy_running()`: the whole `tasklist` query and scan sit in a
`try` whose `except` returns `False`; a failed query is `Except.error ()`. -/
def is_deploy_running (deployScriptName : String) (query : Except Unit String) : Bool :=
  match query with
  | .error _ => false
  | .ok out =>
    let tasks := out.toLower
    str_contains tasks deployScriptName.toLower ||
      (str_contains tasks "python" && str_contains tasks "deploy-wallpaper.py")
/-! ### Concrete demonstration inputs -/

/-- The spec's frame-renaming example: source frames `{b.png, a.png, c.png}`. -/
def demoRunFiles : List SFile := [("b.png", [2]), ("a.png", [1]), ("c.png", [3])]

def demoRun : FsEntry := ⟨"run1", true, 5, demoRunFiles, false, []⟩

def demoParent : Parent := ⟨[demoRun], []⟩

/-- Same run but carrying a `manifest.json`. -/
def demoRunM : FsEntry := ⟨"runm", true, 5, demoRunFiles, true, [9]⟩

def demoParentM : Parent := ⟨[demoRunM], []⟩

def demoProject : Project := ⟨true, [], none⟩

/-- Staging contents produced from `demoParentM` (frames plus manifest). -/
def demoStagedM : List SFile :=
  upsert (writeFrames [] demoRunFiles) "current_manifest.json" [9]

/-- Three runs with `t1 < t2 < t3` and non-chronological names. -/
def demoRunT1 : FsEntry := ⟨"zzz", true, 1, [("x.png", [0])], false, []⟩

def demoRunT2 : FsEntry := ⟨"mmm", true, 2, [("y.png", [1])], false, []⟩

def demoRunT3 : FsEntry := ⟨"aaa", true, 3, [("z.png", [2])], false, []⟩

def demoThreeParent : Parent := ⟨[demoRunT1, demoRunT2, demoRunT3], []⟩

/-- A parent with only a `staging` dir and a plain file: no run candidates. -/
def demoEmptyParent : Parent :=
  ⟨[⟨"staging", true, 7, [], false, []⟩, ⟨"notes.txt", false, 9, [], false, []⟩], []⟩

/-- Children of the output root for resolver tests: one exact-named dir and
one legacy-named dir. -/
def demoChildren : List FsEntry :=
  [⟨"alpha", true, 0, [], false, []⟩, ⟨"Beta ", true, 0, [], false, []⟩]

/-- A stand-in canonicalizer for the resolver tests. -/
def demoCanon : String → String := fun s => if s == "Beta " then "beta" else s

/-- An environment with `STAGE_ONLY=1`. -/
def demoEnv : String → Option String := fun _ => some "1"

/-- A parent whose staging directory still holds a stale `frame_003.png`
from an earlier, larger run, plus a non-frame file. -/
def demoStaleParent : Parent :=
  ⟨[demoRun], [(frameName 3, [7]), ("notes.txt", [8])]⟩

/-! ### Helper lemmas -/

theorem lexLeChars_total (as bs : List Char) :
    lexLeChars as bs = true ∨ lexLeChars bs as = true := by
  induction as generalizing bs with
  | nil => left; rfl
  | cons a as ih =>
    cases bs with
    | nil => right; rfl
    | cons b bs =>
      show (if a.toNat < b.toNat then true else if b.toNat < a.toNat then false
          else lexLeChars as bs) = true ∨
        (if b.toNat < a.toNat then true else if a.toNat < b.toNat then false
          else lexLeChars bs as) = true
      by_cases h1 : a.toNat < b.toNat
      · left; rw [if_pos h1]
      · by_cases h2 : b.toNat < a.toNat
        · right; rw [if_pos h2]
        · rw [if_neg h1, if_neg h2, if_neg h2, if_neg h1]
          exact ih bs

theorem lexLeChars_trans (as bs cs : List Char) (h1 : lexLeChars as bs = true)
    (h2 : lexLeChars bs cs = true) : lexLeChars as cs = true := by
  induction as generalizing bs cs with
  | nil => rfl
  | cons a as ih =>
    cases bs with
    | nil => exact absurd h1 (by simp [lexLeChars])
    | cons b bs =>
      cases cs with
      | nil => exact absurd h2 (by simp [lexLeChars])
      | cons c cs =>
        simp only [lexLeChars] at h1 h2 ⊢
        split_ifs at h1 h2 ⊢ <;>
          first
            | rfl
            | omega
            | simp at h1
            | simp at h2
            | exact ih bs cs h1 h2

instance instTotalByName : IsTotal SFile byName :=
  ⟨fun a b => lexLeChars_total a.1.data b.1.data⟩

instance instTransByName : IsTrans SFile byName :=
  ⟨fun a b c h1 h2 => lexLeChars_trans a.1.data b.1.data c.1.data h1 h2⟩

theorem lookup_upsert (l : List (String × β)) (k' k : String) (v : β) :
    lookup (upsert l k' v) k = if k' == k then some v else lookup l k := by
  unfold upsert lookup
  by_cases hany : l.any (fun e => e.1 == k') = true
  · simp only [hany, if_true]
    by_cases hk : k' = k
    · subst hk
      rw [List.any_eq_true] at hany
      obtain ⟨x, hx, hpx⟩ := hany
      have hsome : (l.find? (fun e => e.1 == k')).isSome := by
        rw [List.find?_isSome]
        exact ⟨x, hx, hpx⟩
      rw [List.find?_map]
      have hpg : (fun e : String × β => e.1 == k') ∘
          (fun e : String × β => if e.1 == k' then (k', v) else e) =
          fun e : String × β => e.1 == k' := by
        funext e
        by_cases he : e.1 = k' <;> simp [he]
      rw [hpg]
      obtain ⟨a, ha⟩ := Option.isSome_iff_exists.mp hsome
      rw [ha]
      have hpa : a.1 = k' := by
        have := List.find?_some ha
        simpa using this
      simp [hpa]
    · have hbne : (k' == k) = false := by simp [hk]
      rw [hbne]
      simp only [Bool.false_eq_true, if_false]
      rw [List.find?_map]
      have hpg : (fun e : String × β => e.1 == k) ∘
          (fun e : String × β => if e.1 == k' then (k', v) else e) =
          fun e : String × β => e.1 == k := by
        funext e
        by_cases he : e.1 = k'
        · simp [he, hk]
        · simp [he]
      rw [hpg]
      cases hf : l.find? (fun e => e.1 == k) with
      | none => simp
      | some a =>
        have hpa : a.1 = k := by
          have := List.find?_some hf
          simpa using this
        have hane : a.1 ≠ k' := by rw [hpa]; exact fun h => hk h.symm
        simp [hane]
  · simp only [hany, if_false, Bool.false_eq_true]
    rw [List.find?_append]
    by_cases hk : k' = k
    · subst hk
      have hnone : l.find? (fun e => e.1 == k') = none := by
        rw [List.find?_eq_none]
        intro x hx
        rw [List.any_eq_true] at hany
        exact fun hpx => hany ⟨x, hx, hpx⟩
      simp [hnone]
    · have hbne : (k' == k) = false := by simp [hk]
      rw [hbne]
      simp only [Bool.false_eq_true, if_false]
      cases hf : l.find? (fun e => e.1 == k) with
      | none => simp [List.find?, hbne]
      | some a => simp

theorem lookup_writeAll (ws : List (String × β)) (prev : List (String × β)) (k : String) :
    lookup (writeAll prev ws) k =
      orO ((ws.reverse.find? (fun e => e.1 == k)).map (·.2)) (lookup prev k) := by
  induction ws generalizing prev with
  | nil => simp [writeAll, orO]
  | cons a ws ih =>
    show lookup (writeAll (upsert prev a.1 a.2) ws) k = _
    rw [ih]
    rw [List.reverse_cons, List.find?_append, lookup_upsert]
    by_cases hk : a.1 = k
    · have hb : (a.1 == k) = true := by simp [hk]
      rw [hb]
      simp only [if_true]
      cases hws : ws.reverse.find? (fun e => e.1 == k) with
      | none => simp [List.find?, hb, orO]
      | some b => simp [orO]
    · have hb : (a.1 == k) = false := by simp [hk]
      rw [hb]
      simp only [Bool.false_eq_true, if_false]
      cases hws : ws.reverse.find? (fun e => e.1 == k) with
      | none => simp [List.find?, hb, orO]
      | some b => simp [orO]

theorem namesOf_upsert_subset (l : List (String × β)) (k : String) (v : β)
    (n : String) (hn : n ∈ namesOf l) : n ∈ namesOf (upsert l k v) := by
  unfold upsert
  by_cases hany : l.any (fun e => e.1 == k) = true
  · simp only [hany, if_true]
    unfold namesOf at hn ⊢
    rw [List.mem_map] at hn ⊢
    obtain ⟨e, he, hne⟩ := hn
    refine ⟨if e.1 == k then (k, v) else e, List.mem_map_of_mem _ he, ?_⟩
    have hfst : (if e.1 == k then (k, v) else e).1 = e.1 := by
      by_cases hek : e.1 = k
      · simp [hek]
      · simp [hek]
    rw [hfst, hne]
  · simp only [hany, if_false, Bool.false_eq_true]
    unfold namesOf at hn ⊢
    rw [List.map_append, List.mem_append]
    exact Or.inl hn

theorem namesOf_writeAll_subset (ws : List (String × β)) (prev : List (String × β))
    (n : String) (hn : n ∈ namesOf prev) : n ∈ namesOf (writeAll prev ws) := by
  induction ws generalizing prev with
  | nil => exact hn
  | cons a ws ih =>
    exact ih (upsert prev a.1 a.2) (namesOf_upsert_subset prev a.1 a.2 n hn)

theorem mem_namesOf_of_lookup (l : List (String × β)) (k : String) (v : β)
    (h : lookup l k = some v) : k ∈ namesOf l := by
  unfold lookup at h
  cases hf : l.find? (fun e => e.1 == k) with
  | none => rw [hf] at h; simp at h
  | some a =>
    have hmem := List.mem_of_find?_eq_some hf
    have hpa : a.1 = k := by
      have := List.find?_some hf
      simpa using this
    unfold namesOf
    rw [List.mem_map]
    exact ⟨a, hmem, hpa⟩
theorem digitChar_toNat (n : Nat) (h : n < 10) : (digitChar n).toNat = 48 + n := by
  interval_cases n <;> rfl

theorem valOfDigits_go (init : Nat) (l : List Char) :
    l.foldl (fun a c => 10 * a + (c.toNat - 48)) init =
      l.foldl (fun a c => 10 * a + (c.toNat - 48)) 0 + init * 10 ^ l.length := by
  induction l generalizing init with
  | nil => simp
  | cons c l ih =>
    show l.foldl _ (10 * init + (c.toNat - 48)) = l.foldl _ (10 * 0 + (c.toNat - 48)) + _
    rw [ih (10 * init + (c.toNat - 48)), ih (10 * 0 + (c.toNat - 48))]
    simp only [List.length_cons, pow_succ]
    ring

theorem valOfDigits_append_digit (l : List Char) (c : Char) :
    valOfDigits (l ++ [c]) = 10 * valOfDigits l + (c.toNat - 48) := by
  unfold valOfDigits
  rw [List.foldl_append]
  rfl

theorem valOfDigits_decCharsGo (fuel n : Nat) (hfuel : n < fuel) :
    valOfDigits (decCharsGo fuel n) = n := by
  induction fuel generalizing n with
  | zero => omega
  | succ fuel ih =>
    show valOfDigits (if n < 10 then [digitChar n]
      else decCharsGo fuel (n / 10) ++ [digitChar (n % 10)]) = n
    by_cases h : n < 10
    · rw [if_pos h]
      unfold valOfDigits
      simp [List.foldl, digitChar_toNat n h]
    · rw [if_neg h]
      rw [valOfDigits_append_digit]
      have hpos : 0 < n := by omega
      have hdiv : n / 10 < n := Nat.div_lt_self hpos (by norm_num)
      rw [ih (n / 10) (by omega)]
      rw [digitChar_toNat (n % 10) (Nat.mod_lt n (by norm_num))]
      omega

theorem valOfDigits_decChars (n : Nat) : valOfDigits (decChars n) = n :=
  valOfDigits_decCharsGo (n + 1) n (Nat.lt_succ_self n)

theorem valOfDigits_replicate_zero (z : Nat) (l : List Char) :
    valOfDigits (List.replicate z '0' ++ l) = valOfDigits l := by
  induction z with
  | zero => simp
  | succ z ih =>
    rw [List.replicate_succ, List.cons_append]
    show valOfDigits (List.replicate z '0' ++ l) = valOfDigits l
    exact ih

theorem valOfDigits_pad3 (n : Nat) : valOfDigits (pad3 n) = n := by
  unfold pad3
  rw [valOfDigits_replicate_zero, valOfDigits_decChars]

theorem pad3_injective (a b : Nat) (h : pad3 a = pad3 b) : a = b := by
  have := congrArg valOfDigits h
  rwa [valOfDigits_pad3, valOfDigits_pad3] at this

theorem frameName_injective (a b : Nat) (h : frameName a = frameName b) : a = b := by
  unfold frameName at h
  have hd : "frame_".data ++ pad3 a ++ ".png".data =
      "frame_".data ++ pad3 b ++ ".png".data := congrArg String.data h
  rw [List.append_assoc, List.append_assoc] at hd
  have h2 : pad3 a ++ ".png".data = pad3 b ++ ".png".data :=
    List.append_cancel_left hd
  exact pad3_injective a b (List.append_cancel_right h2)

theorem frameName_ne_manifest (i : Nat) : frameName i ≠ "current_manifest.json" := by
  intro h
  have hd := congrArg String.data h
  unfold frameName at hd
  have h1 : "frame_".data = ['f', 'r', 'a', 'm', 'e', '_'] := rfl
  have h2 : "current_manifest.json".data =
      ['c', 'u', 'r', 'r', 'e', 'n', 't', '_', 'm', 'a', 'n', 'i', 'f', 'e', 's',
       't', '.', 'j', 's', 'o', 'n'] := rfl
  rw [h1, h2] at hd
  simp at hd

theorem lookup_upsert_ne (l : List (String × β)) (k' k : String) (v : β)
    (h : k' ≠ k) : lookup (upsert l k' v) k = lookup l k := by
  rw [lookup_upsert]
  simp [h]

theorem lookup_writeAll_of_unique (prev ws : List (String × β)) (k : String) (v : β)
    (hmem : (k, v) ∈ ws) (huniq : ∀ e ∈ ws, e.1 = k → e.2 = v) :
    lookup (writeAll prev ws) k = some v := by
  rw [lookup_writeAll]
  cases hf : ws.reverse.find? (fun e => e.1 == k) with
  | none =>
    rw [List.find?_eq_none] at hf
    have := hf (k, v) (List.mem_reverse.mpr hmem)
    simp at this
  | some e =>
    have he1 : e.1 = k := by simpa using List.find?_some hf
    have hein : e ∈ ws := List.mem_reverse.mp (List.mem_of_find?_eq_some hf)
    have he2 : e.2 = v := huniq e hein he1
    simp [orO, he2]

theorem mem_stagedWrites_iff (fs : List SFile) (e : SFile) :
    e ∈ stagedWrites fs ↔
      ∃ i f, (sourceFiles fs)[i]? = some f ∧ e = (frameName i, f.2) := by
  unfold stagedWrites
  rw [List.mem_map]
  constructor
  · rintro ⟨⟨i, f⟩, hmem, rfl⟩
    exact ⟨i, f, List.mk_mem_enum_iff_getElem?.mp hmem, rfl⟩
  · rintro ⟨i, f, hif, rfl⟩
    exact ⟨(i, f), List.mk_mem_enum_iff_getElem?.mpr hif, rfl⟩

theorem lookup_writeFrames (prev fs : List SFile) (i : Nat) (f : SFile)
    (hf : (sourceFiles fs)[i]? = some f) :
    lookup (writeFrames prev fs) (frameName i) = some f.2 := by
  apply lookup_writeAll_of_unique
  · exact (mem_stagedWrites_iff fs _).mpr ⟨i, f, hf, rfl⟩
  · intro e he h1
    obtain ⟨j, g, hjg, rfl⟩ := (mem_stagedWrites_iff fs e).mp he
    have hji : j = i := frameName_injective j i h1
    subst hji
    have := hf.symm.trans hjg
    rw [Option.some_inj] at this
    rw [← this]

theorem namesOf_stagedWrites (fs : List SFile) :
    namesOf (stagedWrites fs) =
      (List.range (sourceFiles fs).length).map frameName := by
  unfold namesOf stagedWrites
  rw [List.map_map]
  have hcomp : (Prod.fst ∘ fun p : Nat × SFile => (frameName p.1, p.2.2)) =
      frameName ∘ Prod.fst := rfl
  rw [hcomp, ← List.map_map]
  rw [List.enum_map_fst]

theorem sortFiles_perm (fs : List SFile) : (sortFiles fs).Perm fs :=
  List.perm_insertionSort byName fs

theorem sortFiles_sorted (fs : List SFile) : List.Sorted byName (sortFiles fs) :=
  List.sorted_insertionSort byName fs

theorem stage_staged_cases (p : Parent) (latest : FsEntry) (mf : Bool)
    (st : List SFile)
    (hsel : selectLatestRun p = some latest)
    (hok : stage_from_latest_run p mf = .ok (.staged st)) :
    sourceFiles latest.files ≠ [] ∧
      (st = writeFrames p.stagingFiles latest.files ∨
       st = upsert (writeFrames p.stagingFiles latest.files)
          "current_manifest.json" latest.manifestBytes) := by
  unfold stage_from_latest_run at hok
  rw [hsel] at hok
  dsimp only at hok
  by_cases hempty : sourceFiles latest.files = []
  · rw [if_pos hempty] at hok
    simp at hok
  · rw [if_neg hempty] at hok
    refine ⟨hempty, ?_⟩
    cases hman : latest.hasManifest with
    | false =>
      rw [hman] at hok
      simp at hok
      exact Or.inl hok.symm
    | true =>
      rw [hman] at hok
      cases mf with
      | true => simp at hok
      | false =>
        simp at hok
        exact Or.inr hok.symm

theorem stage_staged_lookup_frame (p : Parent) (latest : FsEntry) (mf : Bool)
    (st : List SFile)
    (hsel : selectLatestRun p = some latest)
    (hok : stage_from_latest_run p mf = .ok (.staged st))
    (i : Nat) (f : SFile) (hf : (sourceFiles latest.files)[i]? = some f) :
    lookup st (frameName i) = some f.2 := by
  obtain ⟨-, hcase⟩ := stage_staged_cases p latest mf st hsel hok
  cases hcase with
  | inl h =>
    rw [h]
    exact lookup_writeFrames p.stagingFiles latest.files i f hf
  | inr h =>
    rw [h, lookup_upsert_ne _ _ _ _ (Ne.symm (frameName_ne_manifest i))]
    exact lookup_writeFrames p.stagingFiles latest.files i f hf

theorem find?_congr_mem {α : Type} (l : List α) (p q : α → Bool)
    (h : ∀ x ∈ l, p x = q x) : l.find? p = l.find? q := by
  induction l with
  | nil => rfl
  | cons a t ih =>
    have ha := h a (List.mem_cons_self a t)
    cases hqa : q a with
    | true =>
      rw [List.find?_cons_of_pos _ (ha.trans hqa), List.find?_cons_of_pos _ hqa]
    | false =>
      rw [List.find?_cons_of_neg _ (by simp [ha, hqa]),
        List.find?_cons_of_neg _ (by simp [hqa])]
      exact ih (fun x hx => h x (List.mem_cons_of_mem a hx))

theorem bool_ne_true {x : Bool} (h : x = false) : ¬x = true := by
  rw [h]
  simp

theorem foldl_max_spec (a : FsEntry) (l : List FsEntry) :
    some (l.foldl (fun best r => if best.mtime < r.mtime then r else best) a) =
      (a :: l).find? (fun r => (a :: l).all (fun s => decide (s.mtime ≤ r.mtime))) := by
  induction l generalizing a with
  | nil =>
    rw [List.find?_cons_of_pos _ (by simp)]
    rfl
  | cons b t ih =>
    show some (List.foldl _ (if a.mtime < b.mtime then b else a) t) = _
    by_cases hab : a.mtime < b.mtime
    · rw [if_pos hab, ih b]
      symm
      have hPa : ((a :: b :: t).all (fun s => decide (s.mtime ≤ a.mtime))) = false := by
        rw [List.all_eq_false]
        refine ⟨b, by simp, ?_⟩
        simp
        omega
      rw [List.find?_cons_of_neg
        (p := fun r => (a :: b :: t).all fun s => decide (s.mtime ≤ r.mtime))
        (a := a) _ (bool_ne_true hPa)]
      apply find?_congr_mem
      intro r hr
      cases hPr : (b :: t).all (fun s => decide (s.mtime ≤ r.mtime)) with
      | true =>
        have hbr : b.mtime ≤ r.mtime := by
          have := List.all_eq_true.mp hPr b (List.mem_cons_self b t)
          simpa using this
        rw [List.all_cons]
        simp only [hPr, Bool.and_true]
        simp
        omega
      | false =>
        rw [List.all_cons, hPr]
        simp
    · rw [if_neg hab, ih a]
      have hba : b.mtime ≤ a.mtime := by omega
      symm
      cases hPa : (a :: t).all (fun s => decide (s.mtime ≤ a.mtime)) with
      | true =>
        have hPa' : ((a :: b :: t).all (fun s => decide (s.mtime ≤ a.mtime))) = true := by
          rw [List.all_cons, Bool.and_eq_true] at hPa
          rw [List.all_cons, List.all_cons]
          simp only [Bool.and_eq_true]
          refine ⟨hPa.1, ?_, hPa.2⟩
          simp
          omega
        rw [List.find?_cons_of_pos
          (p := fun r => (a :: b :: t).all fun s => decide (s.mtime ≤ r.mtime))
          (a := a) _ hPa']
        rw [List.find?_cons_of_pos
          (p := fun r => (a :: t).all fun s => decide (s.mtime ≤ r.mtime))
          (a := a) _ hPa]
      | false =>
        have htall : (t.all (fun s => decide (s.mtime ≤ a.mtime))) = false := by
          rw [List.all_cons] at hPa
          simpa using hPa
        obtain ⟨s, hs, hsa⟩ := List.all_eq_false.mp htall
        have hsa' : a.mtime < s.mtime := by
          simp at hsa
          omega
        have hPa2 : ((a :: b :: t).all (fun s => decide (s.mtime ≤ a.mtime))) = false := by
          rw [List.all_eq_false]
          refine ⟨s, by simp [hs], ?_⟩
          simp
          omega
        have hPb : ((a :: b :: t).all (fun s => decide (s.mtime ≤ b.mtime))) = false := by
          rw [List.all_eq_false]
          refine ⟨s, by simp [hs], ?_⟩
          simp
          omega
        rw [List.find?_cons_of_neg
          (p := fun r => (a :: b :: t).all fun s => decide (s.mtime ≤ r.mtime))
          (a := a) _ (bool_ne_true hPa2)]
        rw [List.find?_cons_of_neg
          (p := fun r => (a :: b :: t).all fun s => decide (s.mtime ≤ r.mtime))
          (a := b) _ (bool_ne_true hPb)]
        rw [List.find?_cons_of_neg
          (p := fun r => (a :: t).all fun s => decide (s.mtime ≤ r.mtime))
          (a := a) _ (bool_ne_true hPa)]
        apply find?_congr_mem
        intro r hr
        rw [List.all_cons, List.all_cons, List.all_cons]
        cases har : decide (a.mtime ≤ r.mtime) with
        | false => simp
        | true =>
          have hbr : (decide (b.mtime ≤ r.mtime)) = true := by
            simp at har ⊢
            omega
          rw [hbr]
          simp

theorem orO_none (x : Option β) : orO x none = x := by
  cases x <;> rfl

theorem namesOf_filter (l : List SFile) (q : String → Bool) :
    (namesOf l).filter q = namesOf (l.filter (fun f => q f.1)) := by
  induction l with
  | nil => rfl
  | cons a t ih =>
    unfold namesOf at ih ⊢
    cases hq : q a.1 with
    | true => simp [List.filter_cons, hq, ih]
    | false => simp [List.filter_cons, hq, ih]

theorem globFrame_frameName (i : Nat) : globFrame (frameName i) = true := by
  unfold globFrame frameName
  show ("frame_".data.isPrefixOf ("frame_".data ++ pad3 i ++ ".png".data) &&
    ".png".data.isSuffixOf ("frame_".data ++ pad3 i ++ ".png".data) &&
    decide (10 ≤ ("frame_".data ++ pad3 i ++ ".png".data).length)) = true
  rw [Bool.and_eq_true, Bool.and_eq_true]
  refine ⟨⟨?_, ?_⟩, ?_⟩
  · rw [ List.isPrefixOf_iff_prefix]
    exact ⟨pad3 i ++ ".png".data, by simp⟩
  · rw [List.isSuffixOf_iff_suffix]
    exact ⟨"frame_".data ++ pad3 i, by simp⟩
  · rw [decide_eq_true_eq]
    simp only [List.length_append]
    have h6 : (['f', 'r', 'a', 'm', 'e', '_'] : List Char).length = 6 := rfl
    have h4 : (['.', 'p', 'n', 'g'] : List Char).length = 4 := rfl
    omega

theorem frameName_mem_staged (p : Parent) (latest : FsEntry) (mf : Bool)
    (st : List SFile)
    (hsel : selectLatestRun p = some latest)
    (hok : stage_from_latest_run p mf = .ok (.staged st))
    (i : Nat) (h : i < (sourceFiles latest.files).length) :
    frameName i ∈ namesOf st := by
  have hget : (sourceFiles latest.files)[i]? = some ((sourceFiles latest.files)[i]) :=
    List.getElem?_eq_getElem h
  exact mem_namesOf_of_lookup st (frameName i) _
    (stage_staged_lookup_frame p latest mf st hsel hok i _ hget)

theorem namesOf_staged_subset (p : Parent) (latest : FsEntry) (mf : Bool)
    (st : List SFile)
    (hsel : selectLatestRun p = some latest)
    (hok : stage_from_latest_run p mf = .ok (.staged st)) :
    ∀ n ∈ namesOf p.stagingFiles, n ∈ namesOf st := by
  obtain ⟨-, hcase⟩ := stage_staged_cases p latest mf st hsel hok
  intro n hn
  have h1 : n ∈ namesOf (writeFrames p.stagingFiles latest.files) :=
    namesOf_writeAll_subset _ _ n hn
  cases hcase with
  | inl h =>
    rw [h]
    exact h1
  | inr h =>
    rw [h]
    exact namesOf_upsert_subset _ _ _ n h1

/-! ### Claim theorems -/

/-- **C1.** For every (non-empty, after filtering to `.png`) set of source
frames in the selected run, staging writes exactly the files
`frame_000.png` … `frame_(K-1).png` — zero-padded, contiguous, no gaps,
`K` = number of `.png` source files — and the staged `frame_i` holds the
bytes of the `i`-th source file in ascending lexical order of the original
names, regardless of what those names are. -/
theorem stage_frames_renaming (p : Parent) (latest : FsEntry) (mf : Bool)
    (st : List SFile)
    (hsel : selectLatestRun p = some latest)
    (hok : stage_from_latest_run p mf = .ok (.staged st)) :
    sourceFiles latest.files ≠ [] ∧
    List.Sorted byName (sourceFiles latest.files) ∧
    (sourceFiles latest.files).Perm (pngFiles latest.files) ∧
    namesOf (stagedWrites latest.files) =
      (List.range (pngFiles latest.files).length).map frameName ∧
    (∀ i f, (sourceFiles latest.files)[i]? = some f →
      lookup st (frameName i) = some f.2) := by
  obtain ⟨hne, -⟩ := stage_staged_cases p latest mf st hsel hok
  refine ⟨hne, sortFiles_sorted _, sortFiles_perm _, ?_, ?_⟩
  · rw [namesOf_stagedWrites]
    have hlen : (sourceFiles latest.files).length = (pngFiles latest.files).length :=
      (sortFiles_perm (pngFiles latest.files)).length_eq
    rw [hlen]
  · intro i f hf
    exact stage_staged_lookup_frame p latest mf st hsel hok i f hf

/-- **C2.** `stage_from_latest_run` considers exactly the immediate
subdirectories other than the one literally named `staging`; it selects the
first candidate (in listing order) whose modification time is maximal —
never selecting by name — and when no candidate exists it returns the
recoverable no-runs result instead of failing. -/
theorem stage_latest_run_selection (p : Parent) (mf : Bool) :
    runCandidates p = p.entries.filter (fun d => d.isDir && d.name != "staging") ∧
    selectLatestRun p = latestRunSpec p ∧
    (runCandidates p = [] → stage_from_latest_run p mf = .ok .noRuns) := by
  refine ⟨rfl, ?_, ?_⟩
  · unfold selectLatestRun latestRunSpec
    cases hc : runCandidates p with
    | nil => rfl
    | cons a rest => exact foldl_max_spec a rest
  · intro hempty
    have hsel : selectLatestRun p = none := by
      unfold selectLatestRun
      rw [hempty]
    unfold stage_from_latest_run
    rw [hsel]

/-- Witness for C2: a parent with only a `staging` dir and a plain file
yields the no-runs result; and among three runs with mtimes `1 < 2 < 3`
whose names sort in the opposite direction, the mtime-3 run is selected. -/
theorem stage_latest_run_selection_witness :
    stage_from_latest_run demoEmptyParent false = .ok .noRuns ∧
    selectLatestRun demoThreeParent = some demoRunT3 := by
  constructor
  · exact (stage_latest_run_selection demoEmptyParent false).2.2 rfl
  · rfl

/-- **C3 counterexample.** The staging-stage manifest copy
(`shutil.copy2(src_manifest, staging_dir / "current_manifest.json")`) is not
inside any `try`: at a concrete run that has a `manifest.json`, a failing
copy makes `stage_from_latest_run` raise instead of completing, refuting
the claim that a manifest copy failure never aborts the surrounding
operation. -/
theorem stage_manifest_copy_aborts_cex :
    stage_from_latest_run demoParentM true = .error () := by
  rfl

/-- **C3 (amended).** A manifest copy failure at the DEPLOYMENT stage is
caught, logged as a warning, and the deployment still completes; but at the
STAGING stage the `manifest.json → current_manifest.json` copy is
unguarded, so a failure there propagates out of `stage_from_latest_run`
and aborts the staging operation (and, `main` having no handler, the rest
of the batch). -/
theorem manifest_copy_failure_behavior :
    (∀ (p : Parent) (proj : Project) (st : List SFile) (m : FileData),
      stage_from_latest_run p false = .ok (.staged st) →
      lookup st "current_manifest.json" = some m →
      proj.materialsExists = true →
      deploy_latest_frames (some p) proj false false true =
        .ok ⟨.deployed (deployCopyList st).length, some st,
          writeAll proj.materialsFiles (deployCopyList st),
          proj.manifestFile, true⟩) ∧
    (∀ (p : Parent) (latest : FsEntry),
      selectLatestRun p = some latest →
      sourceFiles latest.files ≠ [] →
      latest.hasManifest = true →
      stage_from_latest_run p true = .error ()) := by
  constructor
  · intro p proj st m hst hm hmat
    simp [deploy_latest_frames, hst, hmat, hm]
  · intro p latest hsel hne hman
    simp [stage_from_latest_run, hsel, hne, hman]

/-- Witness for the amended C3 at a concrete run carrying a manifest. -/
theorem manifest_copy_failure_behavior_witness :
    deploy_latest_frames (some demoParentM) demoProject false false true =
      .ok ⟨.deployed 3, some demoStagedM,
        writeAll [] (deployCopyList demoStagedM), none, true⟩ ∧
    stage_from_latest_run demoParentM true = .error () := by
  constructor
  · exact manifest_copy_failure_behavior.1 demoParentM demoProject
      demoStagedM [9] rfl rfl rfl
  · exact manifest_copy_failure_behavior.2 demoParentM demoRunM rfl
      (by decide) rfl

/-- **C4.** `find_parent_dir_for_key` returns the subdirectory literally
named `canonical_key` when it exists as a directory; otherwise it returns
the first immediate subdirectory (in listing order) whose canonicalized
name equals the key; otherwise `none` — and `deploy_latest_frames` treats
`none` as a recoverable per-view skip, so the batch continues with the
remaining views. -/
theorem find_parent_dir_cases (canon : String → String) (children : List FsEntry)
    (key : String) :
    ((∃ c ∈ children, c.name = key ∧ c.isDir = true) →
      find_parent_dir_for_key canon children key = some key) ∧
    ((¬∃ c ∈ children, c.name = key ∧ c.isDir = true) →
      find_parent_dir_for_key canon children key =
        (children.find? (fun c => c.isDir && canon c.name == key)).map (·.name)) ∧
    (∀ (proj : Project) (so smf dmf : Bool) (js : List DeployJob),
      deploy_latest_frames none proj so smf dmf =
        .ok ⟨.sourceNotFound, none, proj.materialsFiles, proj.manifestFile, false⟩ ∧
      runBatch (⟨none, proj, so, smf, dmf⟩ :: js) =
        (runBatch js).map (fun rest => DeployOutcome.sourceNotFound :: rest)) := by
  refine ⟨?_, ?_, ?_⟩
  · intro hex
    unfold find_parent_dir_for_key
    rw [if_pos]
    rw [List.any_eq_true]
    obtain ⟨c, hc, hname, hdir⟩ := hex
    exact ⟨c, hc, by simp [hname, hdir]⟩
  · intro hnex
    unfold find_parent_dir_for_key
    rw [if_neg]
    intro hany
    rw [List.any_eq_true] at hany
    obtain ⟨c, hc, hp⟩ := hany
    rw [Bool.and_eq_true] at hp
    exact hnex ⟨c, hc, by simpa using hp.1, hp.2⟩
  · intro proj so smf dmf js
    exact ⟨rfl, rfl⟩

/-- Witness for C4: exact match, canonicalized fallback, and batch
continuation past an unresolved view. -/
theorem find_parent_dir_cases_witness :
    find_parent_dir_for_key demoCanon demoChildren "alpha" = some "alpha" ∧
    find_parent_dir_for_key demoCanon demoChildren "beta" = some "Beta " ∧
    runBatch [⟨none, demoProject, false, false, false⟩] = .ok [.sourceNotFound] := by
  refine ⟨?_, ?_, ?_⟩
  · exact (find_parent_dir_cases demoCanon demoChildren "alpha").1
      ⟨⟨"alpha", true, 0, [], false, []⟩, by decide, rfl, rfl⟩
  · exact ((find_parent_dir_cases demoCanon demoChildren "beta").2.1
      (by decide)).trans rfl
  · exact ((find_parent_dir_cases demoCanon demoChildren "beta").2.2
      demoProject false false false []).2.trans rfl

/-- **C5.** The project map keys each record of `projects.json` by the
canonicalized base name, and on colliding canonical keys the later record
in input order wins: looking up `k` yields exactly the path of the LAST
record whose canonicalized base equals `k` (none if there is none) —
deterministic in the input order. -/
theorem project_map_last_wins (canon : String → String) (recs : List ProjRecord)
    (k : String) :
    lookup (buildProjects canon recs) k =
      (recs.reverse.find? (fun p => canon p.base == k)).map (·.path) := by
  have h1 : buildProjects canon recs =
      writeAll [] (recs.map (fun p => (canon p.base, p.path))) := by
    unfold buildProjects writeAll
    rw [List.foldl_map]
  rw [h1, lookup_writeAll]
  have h2 : lookup ([] : List (String × String)) k = none := rfl
  rw [h2, orO_none, ← List.map_reverse, List.find?_map, Option.map_map]
  rfl

/-- **C6.** The Mode Arbiter issues a wallpaper switch only when the
observed activity differs from its held state: active while already
`static`, or inactive while already `satellite`, is a no-op; and from any
non-static state, two consecutive deploy-active ticks (with an image
available) issue exactly one static-mode switch — the first tick switches,
the second does nothing. -/
theorem daemon_debounce (s : Option Mode) (pick pick2 : Option String) (img : String) :
    daemonTick (some .static) true pick = (some .static, []) ∧
    daemonTick (some .satellite) false pick = (some .satellite, []) ∧
    (s ≠ some .static →
      (daemonTick s true (some img)).2 = [.setStatic img] ∧
      (daemonTick (daemonTick s true (some img)).1 true pick2).2 = []) := by
  refine ⟨rfl, rfl, ?_⟩
  intro hs
  have hb : (s == some Mode.static) = false := by simpa using hs
  have h1 : daemonTick s true (some img) = (some .static, [.setStatic img]) := by
    unfold daemonTick
    rw [hb]
    rfl
  exact ⟨by rw [h1], by rw [h1]; rfl⟩

/-- Witness for C6 from the initial (`Unknown` = `none`) state: the first
active tick issues the switch, the second active tick issues nothing. -/
theorem daemon_debounce_witness :
    (daemonTick none true (some "img.png")).2 = [.setStatic "img.png"] ∧
    (daemonTick (daemonTick none true (some "img.png")).1 true none).2 = [] :=
  (daemon_debounce none none none "img.png").2.2 (by decide)

/-- **C7.** Any failure of the process-list query makes `is_deploy_running`
return `false` instead of propagating, and on such a tick the Arbiter moves
toward (or stays in) `satellite` (Live) mode — it never stays stuck
believing a deploy is active. -/
theorem watcher_failure_fail_safe (deployName : String) (s : Option Mode)
    (pick : Option String) :
    is_deploy_running deployName (.error ()) = false ∧
    (daemonTick s (is_deploy_running deployName (.error ())) pick).1 =
      some .satellite := by
  refine ⟨rfl, ?_⟩
  show (daemonTick s false pick).1 = some .satellite
  by_cases h : s = some Mode.satellite
  · subst h
    rfl
  · have hb : (s == some Mode.satellite) = false := by simpa using h
    unfold daemonTick
    rw [hb]
    rfl

/-- **C10.** With deploy reported active, a non-`static` held state and an
empty static pool, a tick issues no wallpaper call and leaves the held
state unchanged (so the switch is re-attempted next tick); the held state
can become `static` only through a tick that actually issued a static
wallpaper call with a picked image; and `pick_random_static` yields `none`
exactly on an empty pool. -/
theorem empty_pool_no_switch (s : Option Mode) (a : Bool) (pick : Option String)
    (r : Nat) (choices : List String) :
    (s ≠ some .static → daemonTick s true none = (s, [])) ∧
    ((daemonTick s a pick).1 = some .static →
      s = some .static ∨ (a = true ∧ ∃ img, pick = some img ∧
        (daemonTick s a pick).2 = [.setStatic img])) ∧
    pick_random_static [] r = none ∧
    (choices ≠ [] → (pick_random_static choices r).isSome = true) := by
  refine ⟨?_, ?_, rfl, ?_⟩
  · intro hs
    have hb : (s == some Mode.static) = false := by simpa using hs
    unfold daemonTick
    rw [hb]
    rfl
  · by_cases hs : s = some Mode.static
    · exact fun _ => Or.inl hs
    · intro h1
      have hb : (s == some Mode.static) = false := by simpa using hs
      right
      cases a with
      | false =>
        exfalso
        unfold daemonTick at h1
        by_cases hsat : s = some Mode.satellite
        · subst hsat
          simp at h1
        · have hbs : (s == some Mode.satellite) = false := by simpa using hsat
          rw [hbs] at h1
          simp at h1
      | true =>
        unfold daemonTick at h1 ⊢
        rw [hb] at h1 ⊢
        cases pick with
        | none =>
          exfalso
          exact hs (by simpa using h1)
        | some img => exact ⟨rfl, img, rfl, rfl⟩
  · intro hne
    cases choices with
    | nil => exact absurd rfl hne
    | cons c cs =>
      show ((c :: cs)[r % (c :: cs).length]?).isSome = true
      have hlt : r % (c :: cs).length < (c :: cs).length :=
        Nat.mod_lt _ (by simp)
      rw [List.getElem?_eq_getElem hlt]
      rfl

/-- Witness for C10: from the `Unknown` state with an empty pool the tick
is a no-op; the one-element pool always yields a pick; and a tick that did
reach `static` did so by issuing the static call. -/
theorem empty_pool_no_switch_witness :
    daemonTick none true none = (none, []) ∧
    pick_random_static [] 0 = none ∧
    (pick_random_static ["x.jpg"] 0).isSome = true ∧
    (none = some Mode.static ∨ (true = true ∧ ∃ img,
      (some "x.jpg" : Option String) = some img ∧
      (daemonTick none true (some "x.jpg")).2 = [.setStatic img])) := by
  refine ⟨?_, ?_, ?_, ?_⟩
  · exact (empty_pool_no_switch none true none 0 []).1 (by decide)
  · exact (empty_pool_no_switch none true none 0 []).2.2.1
  · exact (empty_pool_no_switch none true none 0 ["x.jpg"]).2.2.2 (by decide)
  · exact (empty_pool_no_switch none true (some "x.jpg") 0 []).2.1 rfl

/-- **C8.** With the stage-only flag set (`STAGE_ONLY=1` in the
environment), once staging succeeds the deployment copies nothing into the
project — the materials directory and the project's
`current_manifest.json` are untouched — the materials-directory requirement
is never checked (the project here is arbitrary, including
`materialsExists = false`), and the operation reports success with zero
frames deployed. -/
theorem stage_only_no_deploy (env : String → Option String) (p : Parent)
    (proj : Project) (smf dmf : Bool) (st : List SFile)
    (henv : env "STAGE_ONLY" = some "1")
    (hst : stage_from_latest_run p smf = .ok (.staged st)) :
    stageOnlyFlag env = true ∧
    deploy_latest_frames (some p) proj (stageOnlyFlag env) smf dmf =
      .ok ⟨.stagedOnly, some st, proj.materialsFiles, proj.manifestFile, false⟩ ∧
    copiedFrames .stagedOnly = 0 := by
  have hflag : stageOnlyFlag env = true := by
    unfold stageOnlyFlag
    rw [henv]
    rfl
  refine ⟨hflag, ?_, rfl⟩
  rw [hflag]
  simp [deploy_latest_frames, hst]

/-- Witness for C8: a materials-less project with a pre-existing file and
manifest is left exactly as it was. -/
theorem stage_only_no_deploy_witness :
    deploy_latest_frames (some demoParent) ⟨false, [("old.png", [7])], some [1]⟩
      (stageOnlyFlag demoEnv) false false =
      .ok ⟨.stagedOnly, some (writeFrames [] demoRunFiles),
        [("old.png", [7])], some [1], false⟩ :=
  (stage_only_no_deploy demoEnv demoParent ⟨false, [("old.png", [7])], some [1]⟩
    false false (writeFrames [] demoRunFiles) rfl rfl).2.1

/-- **C9.** The deploy loop copies every `frame_*.png` file present in the
staging directory, not only the frames written by the current staging pass:
staging never deletes a pre-existing staging file, every staged file whose
name matches `frame_*.png` is in the copy list, the reported copied count
is the total number of matching files in staging, and when a stale frame
file with an index outside the current run survives in staging the copied
count strictly exceeds the current run's frame count `K`. -/
theorem deploy_copies_stale_frames (p : Parent) (latest : FsEntry) (proj : Project)
    (smf : Bool) (st : List SFile)
    (hsel : selectLatestRun p = some latest)
    (hst : stage_from_latest_run p smf = .ok (.staged st))
    (hmat : proj.materialsExists = true) :
    (∃ res : DeployState,
      deploy_latest_frames (some p) proj false smf false = .ok res ∧
      res.outcome = .deployed (deployCopyList st).length) ∧
    (deployCopyList st).length = (st.filter (fun f => globFrame f.1)).length ∧
    (∀ n ∈ namesOf p.stagingFiles, n ∈ namesOf st) ∧
    (∀ f ∈ st, globFrame f.1 = true → f ∈ deployCopyList st) ∧
    ((namesOf p.stagingFiles).Nodup →
      ∀ n ∈ namesOf p.stagingFiles, globFrame n = true →
      (∀ i < (sourceFiles latest.files).length, n ≠ frameName i) →
      (sourceFiles latest.files).length < (deployCopyList st).length) := by
  refine ⟨?_, ?_, namesOf_staged_subset p latest smf st hsel hst, ?_, ?_⟩
  · cases hlk : lookup st "current_manifest.json" with
    | none =>
      exact ⟨⟨.deployed (deployCopyList st).length, some st,
        writeAll proj.materialsFiles (deployCopyList st), proj.manifestFile, false⟩,
        by simp [deploy_latest_frames, hst, hmat, hlk], rfl⟩
    | some m =>
      exact ⟨⟨.deployed (deployCopyList st).length, some st,
        writeAll proj.materialsFiles (deployCopyList st), some m, false⟩,
        by simp [deploy_latest_frames, hst, hmat, hlk], rfl⟩
  · exact (sortFiles_perm _).length_eq
  · intro f hf hglob
    exact (sortFiles_perm _).mem_iff.mpr (List.mem_filter.mpr ⟨hf, hglob⟩)
  · intro hnodup n hn hglob hnot
    have hSnodup :
        (n :: (List.range (sourceFiles latest.files).length).map frameName).Nodup := by
      rw [List.nodup_cons]
      constructor
      · intro hmem
        rw [List.mem_map] at hmem
        obtain ⟨i, hi, hf⟩ := hmem
        rw [List.mem_range] at hi
        exact hnot i hi hf.symm
      · exact List.Nodup.map (fun a b h => frameName_injective a b h)
          (List.nodup_range _)
    have hsub :
        (n :: (List.range (sourceFiles latest.files).length).map frameName) ⊆
          (namesOf st).filter globFrame := by
      intro x hx
      rw [List.mem_cons] at hx
      cases hx with
      | inl hxe =>
        subst hxe
        exact List.mem_filter.mpr
          ⟨namesOf_staged_subset p latest smf st hsel hst x hn, hglob⟩
      | inr hxm =>
        rw [List.mem_map] at hxm
        obtain ⟨i, hi, rfl⟩ := hxm
        rw [List.mem_range] at hi
        exact List.mem_filter.mpr
          ⟨frameName_mem_staged p latest smf st hsel hst i hi, globFrame_frameName i⟩
    have hsp := (List.subperm_of_subset hSnodup hsub).length_le
    have hlenS :
        (n :: (List.range (sourceFiles latest.files).length).map frameName).length =
          (sourceFiles latest.files).length + 1 := by
      simp
    have hfl : ((namesOf st).filter globFrame).length = (deployCopyList st).length := by
      rw [namesOf_filter]
      unfold namesOf
      rw [List.length_map]
      exact ((sortFiles_perm _).length_eq).symm
    omega

/-- Witness for C9: the latest run has 3 frames but staging still holds a
stale `frame_003.png`; the copy list then has more than 3 entries. -/
theorem deploy_copies_stale_frames_witness :
    (∃ res : DeployState,
      deploy_latest_frames (some demoStaleParent) demoProject false false false =
        .ok res ∧
      res.outcome = .deployed
        (deployCopyList (writeFrames demoStaleParent.stagingFiles demoRunFiles)).length) ∧
    3 < (deployCopyList (writeFrames demoStaleParent.stagingFiles demoRunFiles)).length := by
  have h := deploy_copies_stale_frames demoStaleParent demoRun demoProject false
    (writeFrames demoStaleParent.stagingFiles demoRunFiles) rfl rfl rfl
  exact ⟨h.1, h.2.2.2.2 (by decide) (frameName 3) (by decide) (by decide)
    (by decide)⟩

/-- Witness for C1 at the spec's own example `{b.png, a.png, c.png}`:
`frame_001.png` receives `b.png`'s bytes. -/
theorem stage_frames_renaming_witness :
    stage_from_latest_run demoParent false =
      .ok (.staged (writeFrames [] demoRunFiles)) ∧
    lookup (writeFrames [] demoRunFiles) (frameName 1) = some [2] := by
  constructor
  · rfl
  · exact (stage_frames_renaming demoParent demoRun false
      (writeFrames [] demoRunFiles) rfl rfl).2.2.2.2
      1 ("b.png", [2]) rfl

end SatWall
